import Mathlib

/-!
Shallow embedding of the recursive-descent parser in `src/src/parser.rs`
(the `parser` module of the repository).

The parser pulls tokens one at a time from a lexer and builds an AST
(`Node`), failing with one of three `ParserError` kinds.  The Rust lexer
mutates its state; here the token stream is an explicit `List Token` and
`lexer.lex()` is modelled by popping the head of the list.  The Rust loops
in `parse_array`, `parse_hash` and `parse_expressions` become tail-recursive
helpers carrying the accumulated values; Rust's `try!` becomes propagation
of the `Except.error` case.  The recursion is driven by a fuel parameter
(structural recursion on `Nat`), and `fuel_sufficient` below proves that
`2 * length + 2` fuel always suffices, so the fuel-exhaustion case of the
top-level wrapper is unreachable.

Machine integers: `isize` (64-bit on the targets this crate builds for) is
embedded as `Int` with an explicit range check, matching Rust's
`str::parse::<isize>` which fails on overflow.
-/

namespace Inko

/-- Token kinds consumed by the parser (`TokenType` in the Rust source;
only the kinds the parser dispatches on matter here). -/
inductive TokenType where
  | Integer
  | Float
  | String
  | BrackOpen
  | BrackClose
  | CurlyOpen
  | CurlyClose
  | Comma
  | Colon
deriving DecidableEq, Repr

/-- A token as the lexer produces it: kind, literal text, 1-based line and
column (`Token` in the Rust source). -/
structure Token where
  kind : TokenType
  value : String
  line : Nat
  column : Nat
deriving DecidableEq, Repr

/-- The AST (`Node` in the Rust source).  The Rust `Float` variant carries an
`f64`; here the decoded value is represented as the exact decimal rational
(see `parseF64`), since no claim depends on IEEE-754 rounding. -/
inductive Node where
  | Integer (value : Int) (line : Nat) (column : Nat)
  | Float (value : Rat) (line : Nat) (column : Nat)
  | String (value : String) (line : Nat) (column : Nat)
  | Expressions (children : List Node)
  | Array (values : List Node) (line : Nat) (column : Nat)
  | Hash (pairs : List (Node × Node)) (line : Nat) (column : Nat)

/-- `ParserError` in the Rust source: exactly three kinds. -/
inductive ParserError where
  | EndOfInput
  | InvalidTokenValue
  | InvalidToken
deriving DecidableEq, Repr

/-- The position every node except the `Expressions` wrapper carries. -/
def nodePosition : Node → Option (Nat × Nat)
  | .Integer _ l c => some (l, c)
  | .Float _ l c => some (l, c)
  | .String _ l c => some (l, c)
  | .Expressions _ => none
  | .Array _ l c => some (l, c)
  | .Hash _ l c => some (l, c)

/-- Decimal value of an ASCII digit. -/
def digitVal (c : Char) : Nat := c.toNat - 48

/-- Accumulate a run of decimal digits; `none` if a non-digit appears. -/
def decDigitsAux : List Char → Nat → Option Nat
  | [], acc => some acc
  | c :: cs, acc =>
    if c.isDigit then decDigitsAux cs (acc * 10 + digitVal c) else none

/-- A nonempty all-digit string's value; `none` otherwise. -/
def decDigits : List Char → Option Nat
  | [] => none
  | cs => decDigitsAux cs 0

def isizeMin : Int := -(2 ^ 63)

def isizeMax : Int := 2 ^ 63 - 1

/-- Rust's `str::parse::<isize>` (64-bit): an optional `+` or `-` sign
followed by one or more ASCII digits and nothing else; the value must fit
in the signed 64-bit range, otherwise the conversion fails. -/
def parseIsize (s : String) : Option Int :=
  let signed : Int × List Char :=
    match s.toList with
    | '+' :: rest => (1, rest)
    | '-' :: rest => (-1, rest)
    | cs => (1, cs)
  match decDigits signed.2 with
  | none => none
  | some n =>
    let v : Int := signed.1 * (n : Int)
    if isizeMin ≤ v ∧ v ≤ isizeMax then some v else none

/-- Modelled from the spec: conversion of a Float token's text into the
floating-point value (`str::parse::<f64>` in the Rust source; the same
conversion discipline as integers).  The decoded value is represented as the
exact decimal rational; IEEE-754 binary rounding and the exotic `f64` forms
(`inf`, `NaN`, exponents) are not modelled, as the Token Source of the spec
only emits digit-and-point literals. -/
def parseF64 (s : String) : Option Rat :=
  let signed : Rat × List Char :=
    match s.toList with
    | '+' :: rest => (1, rest)
    | '-' :: rest => (-1, rest)
    | cs => (1, cs)
  let intPart := signed.2.takeWhile Char.isDigit
  let rest := signed.2.dropWhile Char.isDigit
  match decDigits intPart with
  | none => none
  | some n =>
    match rest with
    | [] => some (signed.1 * (n : Rat))
    | '.' :: frac =>
      match decDigits frac with
      | none => none
      | some m =>
        some (signed.1 * ((n : Rat) + (m : Rat) / (10 : Rat) ^ frac.length))
    | _ => none

/-- Modelled from the spec: the external Token Source (the lexer crate is not
under `src/`).  Per the spec it produces tokens (kind, literal text, 1-based
line and column) on demand and signals end of input by producing no token.
Lexing rules implied by the spec's token kinds and examples: spaces and
newlines are skipped (a newline starts the next line at column 1); `[`, `]`,
`\x7b`, `\x7d`, `,`, `:` are single-character tokens; a run of digits is an
Integer token, or a Float token when followed by `.` and more digits; a
double-quoted run is a String token whose text excludes the quotes (no escape
processing).  Fuel is the remaining character count; every step consumes at
least one character, so `s.length` fuel suffices. -/
def lexAux : Nat → List Char → Nat → Nat → List Token
  | 0, _, _, _ => []
  | _ + 1, [], _, _ => []
  | fuel + 1, c :: cs, line, col =>
    if c = ' ' then lexAux fuel cs line (col + 1)
    else if c = '\n' then lexAux fuel cs (line + 1) 1
    else if c = '[' then ⟨.BrackOpen, "[", line, col⟩ :: lexAux fuel cs line (col + 1)
    else if c = ']' then ⟨.BrackClose, "]", line, col⟩ :: lexAux fuel cs line (col + 1)
    else if c = '{' then ⟨.CurlyOpen, "\x7b", line, col⟩ :: lexAux fuel cs line (col + 1)
    else if c = '}' then ⟨.CurlyClose, "\x7d", line, col⟩ :: lexAux fuel cs line (col + 1)
    else if c = ',' then ⟨.Comma, ",", line, col⟩ :: lexAux fuel cs line (col + 1)
    else if c = ':' then ⟨.Colon, ":", line, col⟩ :: lexAux fuel cs line (col + 1)
    else if c = '"' then
      let body := cs.takeWhile (fun ch => ch ≠ '"')
      match cs.dropWhile (fun ch => ch ≠ '"') with
      | '"' :: rest => ⟨.String, String.mk body, line, col⟩ ::
          lexAux fuel rest line (col + body.length + 2)
      | _ => []
    else if c.isDigit then
      let ds := (c :: cs).takeWhile Char.isDigit
      let rest1 := (c :: cs).dropWhile Char.isDigit
      match rest1 with
      | '.' :: d2 :: rest2 =>
        if d2.isDigit then
          let fs := (d2 :: rest2).takeWhile Char.isDigit
          let rest3 := (d2 :: rest2).dropWhile Char.isDigit
          ⟨.Float, String.mk (ds ++ '.' :: fs), line, col⟩ ::
            lexAux fuel rest3 line (col + ds.length + 1 + fs.length)
        else
          ⟨.Integer, String.mk ds, line, col⟩ :: lexAux fuel rest1 line (col + ds.length)
      | _ => ⟨.Integer, String.mk ds, line, col⟩ :: lexAux fuel rest1 line (col + ds.length)
    else []

/-- Modelled from the spec: the whole token stream of an input, 1-based
positions (`Lexer::new(input)` followed by repeated `lex()` calls). -/
def lex (input : String) : List Token :=
  lexAux input.length input.toList 1 1

/-- `parse_integer` in the Rust source. -/
def parse_integer (token : Token) : Except ParserError Node :=
  match parseIsize token.value with
  | some val => .ok (.Integer val token.line token.column)
  | none => .error .InvalidTokenValue

/-- `parse_float` in the Rust source (value decoding via `parseF64`). -/
def parse_float (token : Token) : Except ParserError Node :=
  match parseF64 token.value with
  | some val => .ok (.Float val token.line token.column)
  | none => .error .InvalidTokenValue

/-- `parse_string` in the Rust source: the token's text verbatim. -/
def parse_string (token : Token) : Except ParserError Node :=
  .ok (.String token.value token.line token.column)

mutual

/-- `parse_expression` in the Rust source: pop one token and dispatch on its
kind.  `fuel` drives the recursion; `none` is fuel exhaustion (unreachable
with the fuel `parse_expressions` supplies, see `fuel_sufficient`). -/
def parse_expressionF : Nat → List Token → Option (Except ParserError (Node × List Token))
  | 0, _ => none
  | fuel + 1, ts =>
    match ts with
    | [] => some (.error .EndOfInput)
    | token :: rest =>
      match token.kind with
      | .Integer => some ((parse_integer token).map fun n => (n, rest))
      | .Float => some ((parse_float token).map fun n => (n, rest))
      | .String => some ((parse_string token).map fun n => (n, rest))
      | .BrackOpen => parse_arrayF fuel token [] rest
      | .CurlyOpen => parse_hashF fuel token [] rest
      | _ => some (.error .InvalidToken)

/-- The loop of `parse_array` in the Rust source, entered after the `[` token
(`token`); `values` is the accumulator.  Each iteration unconditionally
parses one expression, pushes it, then pops the separator: `,` continues,
`]` breaks returning the `Array` node at the `[` token's position, anything
else is `InvalidToken`, no token is `EndOfInput`. -/
def parse_arrayF : Nat → Token → List Node → List Token →
    Option (Except ParserError (Node × List Token))
  | 0, _, _, _ => none
  | fuel + 1, token, values, ts =>
    match parse_expressionF fuel ts with
    | none => none
    | some (.error e) => some (.error e)
    | some (.ok (node, rest)) =>
      match rest with
      | [] => some (.error .EndOfInput)
      | sep :: rest2 =>
        match sep.kind with
        | .Comma => parse_arrayF fuel token (values ++ [node]) rest2
        | .BrackClose =>
          some (.ok (.Array (values ++ [node]) token.line token.column, rest2))
        | _ => some (.error .InvalidToken)

/-- The loop of `parse_hash` in the Rust source, entered after the `\x7b`
token: key expression, a required `:` (the `next_token!` macro: wrong kind is
`InvalidToken`, no token is `EndOfInput`), value expression, push the pair,
then the separator: `,` continues, `\x7d` breaks returning the `Hash` node at
the opening token's position. -/
def parse_hashF : Nat → Token → List (Node × Node) → List Token →
    Option (Except ParserError (Node × List Token))
  | 0, _, _, _ => none
  | fuel + 1, token, pairs, ts =>
    match parse_expressionF fuel ts with
    | none => none
    | some (.error e) => some (.error e)
    | some (.ok (key, rest)) =>
      match rest with
      | [] => some (.error .EndOfInput)
      | colon :: rest2 =>
        if colon.kind = .Colon then
          match parse_expressionF fuel rest2 with
          | none => none
          | some (.error e) => some (.error e)
          | some (.ok (value, rest3)) =>
            match rest3 with
            | [] => some (.error .EndOfInput)
            | sep :: rest4 =>
              match sep.kind with
              | .Comma => parse_hashF fuel token (pairs ++ [(key, value)]) rest4
              | .CurlyClose =>
                some (.ok (.Hash (pairs ++ [(key, value)]) token.line token.column, rest4))
              | _ => some (.error .InvalidToken)
        else some (.error .InvalidToken)

/-- The loop of `parse_expressions` in the Rust source: repeatedly parse an
expression; on success push it and continue, on `EndOfInput` break and return
the accumulated children as a successful `Expressions` node, on any other
error return that error. -/
def parse_expressionsF : Nat → List Node → List Token → Option (Except ParserError Node)
  | 0, _, _ => none
  | fuel + 1, nodes, ts =>
    match parse_expressionF fuel ts with
    | none => none
    | some (.error .EndOfInput) => some (.ok (.Expressions nodes))
    | some (.error e) => some (.error e)
    | some (.ok (node, rest)) => parse_expressionsF fuel (nodes ++ [node]) rest

end

/-- `parse_expressions` in the Rust source, with the fuel fixed at a bound
`fuel_sufficient` proves can never run out (the `.error .EndOfInput` default
on that unreachable branch is arbitrary). -/
def parse_expressions (ts : List Token) : Except ParserError Node :=
  match parse_expressionsF (2 * ts.length + 2) [] ts with
  | some r => r
  | none => .error .EndOfInput

/-- `parse` in the Rust source: build a lexer over the input and parse the
top-level expression sequence. -/
def parse (input : String) : Except ParserError Node :=
  parse_expressions (lex input)
/-! ## Consumption, fuel sufficiency, and structural lemmas -/

/-- A successful `parse_expression` (and the array/hash loops it delegates to)
consumes at least one token: the returned remainder is strictly shorter than
the input stream.  This is the well-foundedness argument of the recursion. -/
theorem consume_lt (fuel : Nat) :
    (∀ ts r, parse_expressionF fuel ts = some (.ok r) → r.2.length < ts.length) ∧
    (∀ tk acc ts r, parse_arrayF fuel tk acc ts = some (.ok r) → r.2.length < ts.length) ∧
    (∀ tk acc ts r, parse_hashF fuel tk acc ts = some (.ok r) → r.2.length < ts.length) := by
  induction fuel with
  | zero =>
    refine ⟨fun ts r h => ?_, fun tk acc ts r h => ?_, fun tk acc ts r h => ?_⟩ <;>
      simp [parse_expressionF, parse_arrayF, parse_hashF] at h
  | succ fuel ih =>
    obtain ⟨ihE, ihA, ihH⟩ := ih
    refine ⟨?_, ?_, ?_⟩
    · intro ts r h
      cases ts with
      | nil => simp [parse_expressionF] at h
      | cons token rest =>
        simp only [parse_expressionF] at h
        split at h
        · rcases hpi : parse_integer token with e | n <;>
            simp [hpi, Except.map] at h
          subst h
          simp
        · rcases hpf : parse_float token with e | n <;>
            simp [hpf, Except.map] at h
          subst h
          simp
        · rcases hps : parse_string token with e | n <;>
            simp [hps, Except.map] at h
          subst h
          simp
        · have := ihA _ _ _ _ h
          simp only [List.length_cons]
          omega
        · have := ihH _ _ _ _ h
          simp only [List.length_cons]
          omega
        · simp at h
    · intro tk acc ts r h
      simp only [parse_arrayF] at h
      split at h
      · simp at h
      · simp at h
      · rename_i node rest heq
        have h1 := ihE _ _ heq
        split at h
        · simp at h
        · rename_i sep rest2
          split at h
          · have h2 := ihA _ _ _ _ h
            simp only [List.length_cons] at h1
            omega
          · simp only [Option.some.injEq, Except.ok.injEq] at h
            subst h
            simp only [List.length_cons] at h1 ⊢
            omega
          · simp at h
    · intro tk acc ts r h
      simp only [parse_hashF] at h
      split at h
      · simp at h
      · simp at h
      · rename_i key rest heq
        have h1 := ihE _ _ heq
        split at h
        · simp at h
        · rename_i colon rest2
          split at h
          · split at h
            · simp at h
            · simp at h
            · rename_i value rest3 heq2
              have h2 := ihE _ _ heq2
              split at h
              · simp at h
              · rename_i sep rest4
                split at h
                · have h3 := ihH _ _ _ _ h
                  simp only [List.length_cons] at h1 h2
                  omega
                · simp only [Option.some.injEq, Except.ok.injEq] at h
                  subst h
                  simp only [List.length_cons] at h1 h2 ⊢
                  omega
                · simp at h
          · simp at h

/-- With fuel exceeding twice the stream length, no parsing function runs out
of fuel: the parser's recursion always terminates within that budget. -/
theorem fuel_sufficient (fuel : Nat) :
    (∀ ts, 2 * ts.length < fuel → parse_expressionF fuel ts ≠ none) ∧
    (∀ tk acc ts, 2 * ts.length + 1 < fuel → parse_arrayF fuel tk acc ts ≠ none) ∧
    (∀ tk acc ts, 2 * ts.length + 1 < fuel → parse_hashF fuel tk acc ts ≠ none) ∧
    (∀ acc ts, 2 * ts.length + 1 < fuel → parse_expressionsF fuel acc ts ≠ none) := by
  induction fuel with
  | zero =>
    exact ⟨fun ts h => by omega, fun tk acc ts h => by omega,
      fun tk acc ts h => by omega, fun acc ts h => by omega⟩
  | succ fuel ih =>
    obtain ⟨ihE, ihA, ihH, ihS⟩ := ih
    refine ⟨?_, ?_, ?_, ?_⟩
    · intro ts hlen hnone
      cases ts with
      | nil => simp [parse_expressionF] at hnone
      | cons token rest =>
        simp only [List.length_cons] at hlen
        simp only [parse_expressionF] at hnone
        split at hnone
        · simp at hnone
        · simp at hnone
        · simp at hnone
        · exact ihA _ _ _ (by omega) hnone
        · exact ihH _ _ _ (by omega) hnone
        · simp at hnone
    · intro tk acc ts hlen hnone
      simp only [parse_arrayF] at hnone
      split at hnone
      · rename_i heq
        exact ihE _ (by omega) heq
      · simp at hnone
      · rename_i node rest heq
        have h1 := (consume_lt fuel).1 _ _ heq
        split at hnone
        · simp at hnone
        · rename_i sep rest2
          split at hnone
          · simp only [List.length_cons] at h1
            exact ihA _ _ _ (by omega) hnone
          · simp at hnone
          · simp at hnone
    · intro tk acc ts hlen hnone
      simp only [parse_hashF] at hnone
      split at hnone
      · rename_i heq
        exact ihE _ (by omega) heq
      · simp at hnone
      · rename_i key rest heq
        have h1 := (consume_lt fuel).1 _ _ heq
        split at hnone
        · simp at hnone
        · rename_i colon rest2
          split at hnone
          · split at hnone
            · rename_i heq2
              simp only [List.length_cons] at h1
              exact ihE _ (by omega) heq2
            · simp at hnone
            · rename_i value rest3 heq2
              have h2 := (consume_lt fuel).1 _ _ heq2
              split at hnone
              · simp at hnone
              · rename_i sep rest4
                split at hnone
                · simp only [List.length_cons] at h1 h2
                  exact ihH _ _ _ (by omega) hnone
                · simp at hnone
                · simp at hnone
          · simp at hnone
    · intro acc ts hlen hnone
      simp only [parse_expressionsF] at hnone
      split at hnone
      · rename_i heq
        exact ihE _ (by omega) heq
      · simp at hnone
      · simp at hnone
      · rename_i node rest heq
        have h1 : rest.length < ts.length := (consume_lt fuel).1 _ _ heq
        exact ihS _ _ (by omega) hnone

/-- The top-level loop never reports `EndOfInput`: it either breaks on it
(returning a successful `Expressions` node) or propagates one of the other
two error kinds. -/
theorem exprsF_ne_eoi (fuel : Nat) :
    ∀ acc ts, parse_expressionsF fuel acc ts ≠ some (.error .EndOfInput) := by
  induction fuel with
  | zero => intro acc ts h; simp [parse_expressionsF] at h
  | succ fuel ih =>
    intro acc ts h
    simp only [parse_expressionsF] at h
    split at h
    · simp at h
    · simp at h
    · rename_i e hne heq
      simp only [Option.some.injEq, Except.error.injEq] at h
      exact hne h
    · exact ih _ _ h

/-- `parse_expressions` never returns `EndOfInput` on any token stream. -/
theorem parse_expressions_ne_eoi (ts : List Token) :
    parse_expressions ts ≠ .error .EndOfInput := by
  unfold parse_expressions
  cases hF : parse_expressionsF (2 * ts.length + 2) [] ts with
  | none => exact absurd hF ((fuel_sufficient _).2.2.2 [] ts (by omega))
  | some r =>
    intro h
    simp only at h
    subst h
    exact exprsF_ne_eoi _ [] ts hF

/-- A successful array loop returns an `Array` node positioned at the opening
bracket token, whose values extend the accumulator at the end by at least one
element (elements are appended in source order, never dropped or reordered). -/
theorem arrayF_ok_shape (fuel : Nat) :
    ∀ tk acc ts r, parse_arrayF fuel tk acc ts = some (.ok r) →
      ∃ more, r.1 = .Array (acc ++ more) tk.line tk.column ∧ more ≠ [] := by
  induction fuel with
  | zero => intro tk acc ts r h; simp [parse_arrayF] at h
  | succ fuel ih =>
    intro tk acc ts r h
    simp only [parse_arrayF] at h
    split at h
    · simp at h
    · simp at h
    · rename_i node rest heq
      split at h
      · simp at h
      · rename_i sep rest2
        split at h
        · obtain ⟨more, hmore, hne⟩ := ih _ _ _ _ h
          exact ⟨node :: more, by simpa using hmore, by simp⟩
        · simp only [Option.some.injEq, Except.ok.injEq] at h
          subst h
          exact ⟨[node], rfl, by simp⟩
        · simp at h

/-- A successful hash loop returns a `Hash` node positioned at the opening
brace token, whose pairs extend the accumulator at the end by at least one
pair (pairs are appended in source order, never deduplicated or reordered). -/
theorem hashF_ok_shape (fuel : Nat) :
    ∀ tk acc ts r, parse_hashF fuel tk acc ts = some (.ok r) →
      ∃ more, r.1 = .Hash (acc ++ more) tk.line tk.column ∧ more ≠ [] := by
  induction fuel with
  | zero => intro tk acc ts r h; simp [parse_hashF] at h
  | succ fuel ih =>
    intro tk acc ts r h
    simp only [parse_hashF] at h
    split at h
    · simp at h
    · simp at h
    · rename_i key rest heq
      split at h
      · simp at h
      · rename_i colon rest2
        split at h
        · split at h
          · simp at h
          · simp at h
          · rename_i value rest3 heq2
            split at h
            · simp at h
            · rename_i sep rest4
              split at h
              · obtain ⟨more, hmore, hne⟩ := ih _ _ _ _ h
                exact ⟨(key, value) :: more, by simpa using hmore, by simp⟩
              · simp only [Option.some.injEq, Except.ok.injEq] at h
                subst h
                exact ⟨[(key, value)], rfl, by simp⟩
              · simp at h
        · simp at h

/-- Every node `parse_expression` builds carries the position of the token at
the head of the stream it was called on: its own introducing token. -/
theorem exprF_pos (fuel : Nat) (t : Token) (ts : List Token)
    (r : Node × List Token) (h : parse_expressionF fuel (t :: ts) = some (.ok r)) :
    nodePosition r.1 = some (t.line, t.column) := by
  cases fuel with
  | zero => simp [parse_expressionF] at h
  | succ fuel =>
    simp only [parse_expressionF] at h
    split at h
    · rcases hpi : parseIsize t.value with _ | n <;>
        simp [parse_integer, hpi, Except.map] at h
      subst h
      rfl
    · rcases hpf : parseF64 t.value with _ | q <;>
        simp [parse_float, hpf, Except.map] at h
      subst h
      rfl
    · simp only [parse_string, Except.map, Option.some.injEq, Except.ok.injEq] at h
      subst h
      rfl
    · obtain ⟨more, hmore, -⟩ := arrayF_ok_shape fuel _ _ _ _ h
      rw [hmore]
      rfl
    · obtain ⟨more, hmore, -⟩ := hashF_ok_shape fuel _ _ _ _ h
      rw [hmore]
      rfl
    · simp at h

/-- One step of `parse_expression` on a stream headed by an Integer token. -/
theorem exprF_integer_step (fuel : Nat) (t : Token) (ts : List Token)
    (hk : t.kind = TokenType.Integer) :
    parse_expressionF (fuel + 1) (t :: ts) =
      some ((parse_integer t).map fun n => (n, ts)) := by
  simp [parse_expressionF, hk]

/-- One step of `parse_expression` on a stream headed by a Float token. -/
theorem exprF_float_step (fuel : Nat) (t : Token) (ts : List Token)
    (hk : t.kind = TokenType.Float) :
    parse_expressionF (fuel + 1) (t :: ts) =
      some ((parse_float t).map fun n => (n, ts)) := by
  simp [parse_expressionF, hk]

/-- When the first expression of the stream fails with an error other than
`EndOfInput`, the whole `parse_expressions` returns that error. -/
theorem parse_expressions_head_error (t : Token) (ts : List Token) (e : ParserError)
    (he : e ≠ ParserError.EndOfInput)
    (h : parse_expressionF (2 * ts.length + 3) (t :: ts) = some (.error e)) :
    parse_expressions (t :: ts) = .error e := by
  unfold parse_expressions
  have h1 : 2 * (t :: ts).length + 2 = (2 * ts.length + 3) + 1 := by
    simp [List.length_cons]
    ring
  rw [h1]
  cases e with
  | EndOfInput => exact absurd rfl he
  | InvalidTokenValue => simp only [parse_expressionsF, h]
  | InvalidToken => simp only [parse_expressionsF, h]
/-! ## The claims -/

/-- C1 (counterexample): the claim says `parse("[1,2")` — input exhausted in
the middle of an array — fails with `EndOfInput`; in fact it parses
successfully to an empty `Expressions` node, and in particular does not
return `EndOfInput`. -/
theorem unterminated_array_parses_ok :
    parse "[1,2" = .ok (.Expressions []) ∧ parse "[1,2" ≠ .error .EndOfInput :=
  ⟨rfl, fun h => Except.noConfusion h⟩

/-- C1 (amended): exhaustion of input mid-structure raises `EndOfInput`
internally, but it propagates to the top-level loop of `parse_expressions`,
which treats it as the end-of-document terminator: `parse("[1,2")` returns a
successful empty `Expressions` node (the partial array is discarded), and an
input with a completed top-level node before the unterminated structure keeps
the completed nodes. -/
theorem end_of_input_swallowed_at_top_level :
    parse "[1,2" = .ok (.Expressions []) ∧
    parse "1 [2,3" = .ok (.Expressions [.Integer 1 1 1]) :=
  ⟨rfl, rfl⟩

/-- C2: for every input, `parse` never returns `EndOfInput`: every
`EndOfInput` raised anywhere in the recursion propagates to the top-level
loop in `parse_expressions`, which breaks and returns a successful
`Expressions` node with the nodes accumulated so far. -/
theorem parse_never_returns_end_of_input :
    (∀ ts, parse_expressions ts ≠ .error .EndOfInput) ∧
    (∀ s, parse s ≠ .error .EndOfInput) :=
  ⟨parse_expressions_ne_eoi, fun s => parse_expressions_ne_eoi (lex s)⟩

/-- C3: `parse("[]")` and `parse("\x7b\x7d")` fail (with `InvalidToken`, the
close token being rejected as the head of the unconditionally-parsed first
element), and in general a successfully parsed array or hash is never empty. -/
theorem empty_compound_rejected :
    parse "[]" = .error .InvalidToken ∧
    parse "\x7b\x7d" = .error .InvalidToken ∧
    (∀ fuel tk ts r, parse_arrayF fuel tk [] ts = some (.ok r) →
      ∀ vs l c, r.1 = .Array vs l c → vs ≠ []) ∧
    (∀ fuel tk ts r, parse_hashF fuel tk [] ts = some (.ok r) →
      ∀ ps l c, r.1 = .Hash ps l c → ps ≠ []) := by
  refine ⟨rfl, rfl, ?_, ?_⟩
  · intro fuel tk ts r h vs l c hvs
    obtain ⟨more, hmore, hne⟩ := arrayF_ok_shape fuel tk [] ts r h
    rw [hvs] at hmore
    injection hmore with h1 h2 h3
    subst h1
    simpa using hne
  · intro fuel tk ts r h ps l c hps
    obtain ⟨more, hmore, hne⟩ := hashF_ok_shape fuel tk [] ts r h
    rw [hps] at hmore
    injection hmore with h1 h2 h3
    subst h1
    simpa using hne

/-- C4: an Integer or Float token whose text does not convert (including
integer overflow, as in `parse("99999999999999999999")`) makes the parse fail
with `InvalidTokenValue`, whatever follows; when the text converts, the node
carries the decoded value (concretely: `parse("42")`). -/
theorem invalid_scalar_value_fails_parse :
    (∀ t ts, t.kind = TokenType.Integer → parseIsize t.value = none →
      parse_expressions (t :: ts) = .error .InvalidTokenValue) ∧
    (∀ t ts, t.kind = TokenType.Float → parseF64 t.value = none →
      parse_expressions (t :: ts) = .error .InvalidTokenValue) ∧
    (∀ t v, t.kind = TokenType.Integer → parseIsize t.value = some v →
      parse_expressions [t] = .ok (.Expressions [.Integer v t.line t.column])) ∧
    (∀ t q, t.kind = TokenType.Float → parseF64 t.value = some q →
      parse_expressions [t] = .ok (.Expressions [.Float q t.line t.column])) ∧
    parse "99999999999999999999" = .error .InvalidTokenValue ∧
    parse "42" = .ok (.Expressions [.Integer 42 1 1]) := by
  refine ⟨?_, ?_, ?_, ?_, rfl, rfl⟩
  · intro t ts hk hv
    apply parse_expressions_head_error _ _ _ (by decide)
    rw [show 2 * ts.length + 3 = (2 * ts.length + 2) + 1 from rfl,
      exprF_integer_step _ _ _ hk]
    simp [parse_integer, hv, Except.map]
  · intro t ts hk hv
    apply parse_expressions_head_error _ _ _ (by decide)
    rw [show 2 * ts.length + 3 = (2 * ts.length + 2) + 1 from rfl,
      exprF_float_step _ _ _ hk]
    simp [parse_float, hv, Except.map]
  · intro t v hk hv
    have e4 : parse_expressions [t] =
        match parse_expressionsF (3 + 1) [] [t] with
        | some r => r
        | none => .error .EndOfInput := rfl
    rw [e4]
    simp only [show (3 : Nat) = 2 + 1 from rfl, show (2 : Nat) = 1 + 1 from rfl,
      parse_expressionsF, parse_expressionF, hk, parse_integer, hv, Except.map,
      List.nil_append]
  · intro t q hk hv
    have e4 : parse_expressions [t] =
        match parse_expressionsF (3 + 1) [] [t] with
        | some r => r
        | none => .error .EndOfInput := rfl
    rw [e4]
    simp only [show (3 : Nat) = 2 + 1 from rfl, show (2 : Nat) = 1 + 1 from rfl,
      parse_expressionsF, parse_expressionF, hk, parse_float, hv, Except.map,
      List.nil_append]

/-- C5: `parse("")` succeeds and returns an `Expressions` node with zero
children; an empty token stream parses to the empty wrapper, never an error. -/
theorem empty_input_parses_to_empty_expressions :
    parse "" = .ok (.Expressions []) ∧ parse_expressions [] = .ok (.Expressions []) :=
  ⟨rfl, rfl⟩

/-- C6: `parse("[1,2,3]")` returns one `Array` node whose elements are
`Integer(1)`, `Integer(2)`, `Integer(3)` in source order; in general the
array loop appends each parsed element at the end of the accumulator. -/
theorem array_elements_in_source_order :
    parse "[1,2,3]" =
      .ok (.Expressions [.Array [.Integer 1 1 2, .Integer 2 1 4, .Integer 3 1 6] 1 1]) ∧
    (∀ fuel tk acc ts r, parse_arrayF fuel tk acc ts = some (.ok r) →
      ∃ more, r.1 = .Array (acc ++ more) tk.line tk.column ∧ more ≠ []) :=
  ⟨rfl, fun fuel tk acc ts r h => arrayF_ok_shape fuel tk acc ts r h⟩

/-- C7: `parse("\x7b\"a\":1\x7d")` returns a `Hash` with the single pair
(`String("a")`, `Integer(1)`); pairs appear in source order and duplicate
keys are kept (both pairs of `\x7b"a":1,"a":2\x7d` survive, in order); in
general the hash loop appends each pair at the end of the accumulator. -/
theorem hash_pairs_in_source_order :
    parse "\x7b\"a\":1\x7d" =
      .ok (.Expressions [.Hash [(.String "a" 1 2, .Integer 1 1 6)] 1 1]) ∧
    parse "\x7b\"a\":1,\"a\":2\x7d" =
      .ok (.Expressions [.Hash [(.String "a" 1 2, .Integer 1 1 6),
        (.String "a" 1 8, .Integer 2 1 12)] 1 1]) ∧
    (∀ fuel tk acc ts r, parse_hashF fuel tk acc ts = some (.ok r) →
      ∃ more, r.1 = .Hash (acc ++ more) tk.line tk.column ∧ more ≠ []) :=
  ⟨rfl, rfl, fun fuel tk acc ts r h => hashF_ok_shape fuel tk acc ts r h⟩

/-- C8: every node `parse_expression` returns carries the position of its own
introducing token — the token at the head of the stream: the opening bracket
for compounds (not the first element), the literal token for scalars;
concretely, `parse("  [1]")` puts the `Array` node at column 3 (the `[`),
its element at column 4. -/
theorem node_position_is_introducing_token :
    (∀ fuel t ts r, parse_expressionF fuel (t :: ts) = some (.ok r) →
      nodePosition r.1 = some (t.line, t.column)) ∧
    parse "  [1]" = .ok (.Expressions [.Array [.Integer 1 1 4] 1 3]) :=
  ⟨fun fuel t ts r h => exprF_pos fuel t ts r h, rfl⟩

/-- C9: after an array element, a separator token that is neither `,` nor `]`
makes the array loop fail with `InvalidToken`; concretely
`parse("[1 2]")` fails with `InvalidToken`. -/
theorem missing_separator_is_invalid_token :
    (∀ fuel tk acc ts node sep rest2,
      parse_expressionF fuel ts = some (.ok (node, sep :: rest2)) →
      sep.kind ≠ .Comma → sep.kind ≠ .BrackClose →
      parse_arrayF (fuel + 1) tk acc ts = some (.error .InvalidToken)) ∧
    parse "[1 2]" = .error .InvalidToken := by
  refine ⟨?_, rfl⟩
  intro fuel tk acc ts node sep rest2 h h1 h2
  cases hk : sep.kind <;> simp_all [parse_arrayF, h, hk]

/-- C10: the parser terminates on every finite token stream — with the fuel
`parse_expressions` supplies the recursion always produces a result — because
every successful `parse_expression` call consumes at least one token. -/
theorem parser_terminates_on_finite_stream :
    (∀ ts : List Token, ∃ r, parse_expressionsF (2 * ts.length + 2) [] ts = some r) ∧
    (∀ fuel ts r, parse_expressionF fuel ts = some (.ok r) → r.2.length < ts.length) := by
  constructor
  · intro ts
    cases h : parse_expressionsF (2 * ts.length + 2) [] ts with
    | none => exact absurd h ((fuel_sufficient _).2.2.2 [] ts (by omega))
    | some r => exact ⟨r, rfl⟩
  · exact fun fuel ts r h => (consume_lt fuel).1 ts r h

end Inko
